import Mathlib

/-!
Verification of the footnote-resolution engine in `src/main.ts`.

The development shallowly embeds the TypeScript source: mdast nodes become the
inductive `MNode`, the two visitor passes over the chapter tree and the
footnote tree become state-threading recursive functions (`chapRunList`,
`fnGo`), thrown JS exceptions become `Except Err`, the `usedIdentifiers`
set and the `targetsToFinalIdentifiers` map become a list and an
association list, and the hast-side `collectReferencedUrls` helper gets its
own small embedding (`HNode`, `collectReferencedUrls`).
-/

namespace CapConv

/-- The two known document filenames (`file1`, `file2` in `main.ts`). -/
def file1 : String := "chapter001.xhtml"

/-- The footnote-container filename (`file2` in `main.ts`). -/
def file2 : String := "chapter001-fn.xhtml"

/-- Errors thrown by the program.  Each constructor corresponds to one
`throw new Error(...)` site in `main.ts` (the message strings are dropped,
the payload keeps the interpolated data).  `undefinedLabel` is a model
cut-off: where the JS code would read the `.value` property of a node that
has none (yielding `undefined` and propagating it into the registry), the
model stops with this error instead; no claim depends on that corner.
`allocFuel` is a model artifact standing for non-termination of the
identifier-growth `while` loop (see `growLoop`). -/
inductive Err where
  | externalLink (file : String)
  | noTarget (url : String)
  | unexpectedChildren
  | jsTypeError
  | undefinedLabel
  | conflictingNumeric (label : String)
  | unexpectedPosition
  | tooManyReferencedFiles
  | allocFuel
deriving Repr, DecidableEq

/-- mdast nodes, restricted to the shapes `main.ts` manipulates.
`container` covers every other node kind (root, paragraph, emphasis, ...)
that merely carries ordered children. -/
inductive MNode where
  | link (url : String) (children : List MNode)
  | text (value : String)
  | html (value : String)
  | footnoteReference (identifier : String)
  | footnoteDefinition (identifier : String) (children : List MNode)
  | container (kind : String) (children : List MNode)
deriving Repr

/-- The shared registry: `usedIdentifiers` (a `Set<string>`) and
`targetsToFinalIdentifiers` (a `Map<string, string>`), lines 34-35. -/
structure St where
  used : List String
  targets : List (String × String)
deriving Repr, DecidableEq

/-- The fresh registry created at the start of a run. -/
def St0 : St := ⟨[], []⟩

/-- JS `Map.prototype.set`: overwrite the entry for `k` if present,
otherwise append it. -/
def mapSet (m : List (String × String)) (k v : String) : List (String × String) :=
  match m with
  | [] => [(k, v)]
  | (k', v') :: rest => if k' = k then (k, v) :: rest else (k', v') :: mapSet rest k v

/-- JS `Map.prototype.get` (`undefined` becomes `none`). -/
def mapGet (m : List (String × String)) (k : String) : Option String :=
  match m with
  | [] => none
  | (k', v') :: rest => if k' = k then some v' else mapGet rest k

/-- JS `s.split("#")`: the list of parts between `#` separators (empty
parts included), written over the character list so it computes by
kernel reduction. -/
def splitHashAux : List Char → List (List Char)
  | [] => [[]]
  | c :: rest =>
    if c = '#' then [] :: splitHashAux rest
    else
      match splitHashAux rest with
      | [] => [[c]]
      | p :: ps => (c :: p) :: ps

/-- JS `url.split("#")` followed by destructuring `[file, target]`:
the part before the first `#`, and the part between the first and second
`#` (or `none` when there is no `#`). -/
def splitUrl (url : String) : String × Option String :=
  match splitHashAux url.data with
  | [] => (url, none)
  | [f] => (⟨f⟩, none)
  | f :: t :: _ => (⟨f⟩, some ⟨t⟩)

/-- JS `s.startsWith(p)` (on code units, which for the strings this
program manipulates coincides with characters). -/
def strStartsWith (s p : String) : Bool :=
  p.data.isPrefixOf s.data

/-- JS `s.endsWith(p)`. -/
def strEndsWith (s p : String) : Bool :=
  p.data.isSuffixOf s.data

/-- JS `s.slice(n)` for `0 ≤ n ≤ s.length`. -/
def strDrop (s : String) (n : Nat) : String :=
  ⟨s.data.drop n⟩

/-- Dropping the last `n` characters: together with `strDrop` this gives
JS `s.slice(5, -4)` as used on the anchor comments. -/
def strDropRight (s : String) (n : Nat) : String :=
  ⟨s.data.take (s.data.length - n)⟩

/-- JS whitespace accepted by `parseInt` before the number. -/
def isJsWhitespace (c : Char) : Bool :=
  c = ' ' || c = '\t' || c = '\n' || c = '\r' || c = '\x0b' || c = '\x0c'

/-- Numeric value of a hexadecimal digit character. -/
def hexDigitVal (c : Char) : Option Nat :=
  if '0' ≤ c ∧ c ≤ '9' then some (c.toNat - '0'.toNat)
  else if 'a' ≤ c ∧ c ≤ 'f' then some (c.toNat - 'a'.toNat + 10)
  else if 'A' ≤ c ∧ c ≤ 'F' then some (c.toNat - 'A'.toNat + 10)
  else none

/-- Is `c` a digit in base `base` (base 10 or 16 here)? -/
def isBaseDigit (base : Nat) (c : Char) : Bool :=
  match hexDigitVal c with
  | some v => v < base
  | none => false

/-- Parse the longest prefix of base-`base` digits; `none` when there is
no digit at all (JS `NaN`). -/
def parseDigits (base : Nat) (cs : List Char) : Option Nat :=
  let ds := cs.takeWhile (isBaseDigit base)
  if ds.isEmpty then none
  else some (ds.foldl (fun acc c => acc * base + ((hexDigitVal c).getD 0)) 0)

/-- JS `Number.parseInt(s)` with the radix argument omitted: skip leading
whitespace, an optional sign, a `0x`/`0X` hex prefix, then the longest
digit prefix; `NaN` (here `none`) when no digit follows. -/
def jsParseInt (s : String) : Option Int :=
  let cs := s.toList.dropWhile isJsWhitespace
  let (sign, cs) : Int × List Char :=
    match cs with
    | '-' :: rest => (-1, rest)
    | '+' :: rest => (1, rest)
    | _ => (1, cs)
  match cs with
  | '0' :: x :: rest =>
    if x = 'x' ∨ x = 'X' then (parseDigits 16 rest).map (fun n => sign * n)
    else (parseDigits 10 cs).map (fun n => sign * n)
  | _ => (parseDigits 10 cs).map (fun n => sign * n)

/-- Truthiness of `Number.parseInt(s)` as used in
`if (Number.parseInt(desiredIdentifier))`: `NaN`, `0` and `-0` are falsy,
every other number is truthy. -/
def jsParseIntTruthy (s : String) : Bool :=
  match jsParseInt s with
  | some n => n ≠ 0
  | none => false

/-- JS `s.repeat(n)`. -/
def strRepeat (s : String) : Nat → String
  | 0 => ""
  | n + 1 => s ++ strRepeat s n

/-- Decimal digits of a natural number, with fuel so the definition is
structurally recursive (and therefore computes by kernel reduction);
`natDecChars` supplies enough fuel below. -/
def natDecCharsAux : Nat → Nat → List Char
  | 0, _ => []
  | fuel + 1, n =>
    if n < 10 then [Char.ofNat (48 + n)]
    else natDecCharsAux fuel (n / 10) ++ [Char.ofNat (48 + n % 10)]

/-- Decimal rendering of a natural number (the JS template literal
`${i}`), written out so that its injectivity can be proved below. -/
def natDecChars (n : Nat) : List Char :=
  natDecCharsAux (n + 1) n

/-- Decimal rendering of `i` as a string. -/
def natDec (n : Nat) : String := ⟨natDecChars n⟩

/-- Value of a digit string, the left inverse used to prove `natDecChars`
injective. -/
def decVal (l : List Char) : Nat :=
  l.foldl (fun a c => 10 * a + (c.toNat - 48)) 0

/-- The candidate identifier built by one iteration of the growth loop
(lines 71-73):  `` desiredIdentifier.startsWith("ast") ? `ast${i}` :
desiredIdentifier.repeat(i) `` with the asterisk base label abstracted as
`pfx` (`"ast"` in the chapter pass, `"fn-ast"` in the footnote pass). -/
def growCand (pfx desired : String) (i : Nat) : String :=
  if strStartsWith desired pfx then pfx ++ natDec i else strRepeat desired i

/-- The `while (usedIdentifiers.has(finalIdentifier))` loop of lines
68-76, with an explicit fuel so the model stays total: `none` stands for
the loop still running after `fuel` iterations (the JS loop would simply
keep going). -/
def growLoop (used : List String) (pfx desired : String) : String → Nat → Nat → Option String
  | _, _, 0 => none
  | finalId, i, fuel + 1 =>
    if used.contains finalId then growLoop used pfx desired (growCand pfx desired i) (i + 1) fuel
    else some finalId

/-- The asterisk substitution of lines 52-55 / 184-190: a literal `*`
label is replaced by the sentinel base label (`"ast1"` in the chapter
pass, `"fn-ast1"` in the footnote pass). -/
def desiredOf (pfx lbl : String) : String :=
  if lbl = "*" then pfx ++ "1" else lbl

/-- The identifier-allocation block, lines 50-78 (chapter pass) and lines
182-213 (footnote pass), which differ only in the asterisk base label:
substitute the sentinel for a literal `*` label, take the label verbatim
when unused, reject used labels that parse to a truthy integer, otherwise
grow until unused.  The loop gets fuel `used.length + 2`, proved
sufficient for every non-empty label by `growLoop_reaches_fresh` below. -/
def allocateWith (pfx : String) (used : List String) (lbl : String) :
    Except Err (String × List String) :=
  let desired := desiredOf pfx lbl
  if used.contains desired then
    if jsParseIntTruthy desired then .error (.conflictingNumeric desired)
    else
      match growLoop used pfx desired desired 2 (used.length + 2) with
      | some finalId => .ok (finalId, finalId :: used)
      | none => .error .allocFuel
  else .ok (desired, desired :: used)

/-- The mdast `type` tag of a node. -/
def nodeType : MNode → String
  | .link _ _ => "link"
  | .text _ => "text"
  | .html _ => "html"
  | .footnoteReference _ => "footnoteReference"
  | .footnoteDefinition _ _ => "footnoteDefinition"
  | .container k _ => k

/-- JS property access `.value`: `text` and `html` nodes carry a string
`value`, every other node kind yields `undefined` (`none`). -/
def jsValue : MNode → Option String
  | .text v => some v
  | .html v => some v
  | _ => none

/-- The children-shape guard of lines 44-48 / 100-104:
`node.children.length !== 1 && node.children[0].type !== "text"` throws;
on an empty children array the second conjunct dereferences `undefined`
and raises a `TypeError` instead. -/
def childrenCheck (cs : List MNode) : Except Err Unit :=
  match cs with
  | [] => .error .jsTypeError
  | c :: _ =>
    if cs.length ≠ 1 ∧ nodeType c ≠ "text" then .error .unexpectedChildren
    else .ok ()

/-- Reading `(node.children[0] as Text).value` (line 50 / line 182).
The model stops with `undefinedLabel` where JS would read `undefined`
(single child without a `value` property). -/
def labelValue (cs : List MNode) : Except Err String :=
  match cs with
  | [] => .error .jsTypeError
  | c :: _ =>
    match jsValue c with
    | some v => .ok v
    | none => .error .undefinedLabel

/-- The chapter-pass visitor callback, lines 36-88: validate the link's
url and children, allocate an identifier (asterisk base label `"ast"`),
record the target mapping and replace the node with a footnote
reference. -/
def chapLinkStep (st : St) (url : String) (cs : List MNode) : Except Err (MNode × St) :=
  if (splitUrl url).1 ≠ file2 then .error (.externalLink (splitUrl url).1)
  else
    match (splitUrl url).2 with
    | none => .error (.noTarget url)
    | some t =>
      if t = "" then .error (.noTarget url)
      else
        match childrenCheck cs with
        | .error e => .error e
        | .ok _ =>
          match labelValue cs with
          | .error e => .error e
          | .ok lbl =>
            match allocateWith "ast" st.used lbl with
            | .error e => .error e
            | .ok p => .ok (.footnoteReference p.1, ⟨p.2, mapSet st.targets t p.1⟩)

/-- The chapter-pass traversal `visit(chap, "link", ...)`: ordered
depth-first walk; every link node is handed to `chapLinkStep` and its
subtree skipped (`SKIP`); every other node keeps its kind and gets its
children walked in place. -/
def chapRunList (nodes : List MNode) (st : St) : Except Err (List MNode × St) :=
  match nodes with
  | [] => .ok ([], st)
  | .link url cs :: rest =>
    match chapLinkStep st url cs with
    | .error e => .error e
    | .ok (n, st₁) =>
      match chapRunList rest st₁ with
      | .error e => .error e
      | .ok (rest', st₂) => .ok (n :: rest', st₂)
  | .text v :: rest =>
    match chapRunList rest st with
    | .error e => .error e
    | .ok (rest', st') => .ok (.text v :: rest', st')
  | .html v :: rest =>
    match chapRunList rest st with
    | .error e => .error e
    | .ok (rest', st') => .ok (.html v :: rest', st')
  | .footnoteReference i :: rest =>
    match chapRunList rest st with
    | .error e => .error e
    | .ok (rest', st') => .ok (.footnoteReference i :: rest', st')
  | .footnoteDefinition i cs :: rest =>
    match chapRunList cs st with
    | .error e => .error e
    | .ok (cs', st₁) =>
      match chapRunList rest st₁ with
      | .error e => .error e
      | .ok (rest', st₂) => .ok (.footnoteDefinition i cs' :: rest', st₂)
  | .container k cs :: rest =>
    match chapRunList cs st with
    | .error e => .error e
    | .ok (cs', st₁) =>
      match chapRunList rest st₁ with
      | .error e => .error e
      | .ok (rest', st₂) => .ok (.container k cs' :: rest', st₂)

/-- Lines 153-164: look at the previous sibling; when it is an `html`
node of the comment shape `<!-- id -->`, look its id up in the shared
target map (`identifier` in the source, `undefined` otherwise). -/
def prevIdentifier (tm : List (String × String)) (prev : MNode) : Option String :=
  match prev with
  | .html v =>
    if strStartsWith v "<!-- " && strEndsWith v " -->" then
      mapGet tm (strDropRight (strDrop v 5) 4)
    else none
  | _ => none

/-- The footnote-pass reference branch, lines 179-222: read the label,
allocate (asterisk base label `"fn-ast"`), record the target mapping and
build the replacement footnote-reference node. -/
def fnRefStep (st : St) (cs : List MNode) (t : String) :
    Except Err (MNode × St) :=
  match labelValue cs with
  | .error e => .error e
  | .ok lbl =>
    match allocateWith "fn-ast" st.used lbl with
    | .error e => .error e
    | .ok p => .ok (.footnoteReference p.1, ⟨p.2, mapSet st.targets t p.1⟩)

/-- The footnote-pass traversal `visit(footnotes, "link", ...)`, lines
91-223.  `acc` is the already-visited prefix of the current parent's
(mutated) children array, so `acc.length` is the visitor's `index` and
`acc.getLast?` is `parent.children[index - 1]`.  A link whose previous
sibling is a recorded anchor comment with a truthy mapped identifier
becomes a footnote definition and the comment is spliced out (resuming at
the following node, `return [SKIP, index]`); every other link goes
through `fnRefStep`; non-link nodes get their children walked with a
fresh `acc`. -/
def fnGo (st : St) (acc : List MNode) : List MNode → Except Err (List MNode × St)
  | [] => .ok (acc, st)
  | .link url cs :: rest =>
    if (splitUrl url).1 ≠ file1 ∧ (splitUrl url).1 ≠ file2 then
      .error (.externalLink (splitUrl url).1)
    else
      match (splitUrl url).2 with
      | none => .error (.noTarget url)
      | some t =>
        if t = "" then .error (.noTarget url)
        else
          match childrenCheck cs with
          | .error e => .error e
          | .ok _ =>
            match acc.getLast? with
            | none => .error .unexpectedPosition
            | some prevSib =>
              match prevIdentifier st.targets prevSib with
              | some v =>
                if v = "" then
                  match fnRefStep st cs t with
                  | .error e => .error e
                  | .ok (n, st') => fnGo st' (acc ++ [n]) rest
                else fnGo st (acc.dropLast ++ [.footnoteDefinition v []]) rest
              | none =>
                match fnRefStep st cs t with
                | .error e => .error e
                | .ok (n, st') => fnGo st' (acc ++ [n]) rest
  | .text v :: rest => fnGo st (acc ++ [.text v]) rest
  | .html v :: rest => fnGo st (acc ++ [.html v]) rest
  | .footnoteReference i :: rest => fnGo st (acc ++ [.footnoteReference i]) rest
  | .footnoteDefinition i cs :: rest =>
    match fnGo st [] cs with
    | .error e => .error e
    | .ok (cs', st₁) => fnGo st₁ (acc ++ [.footnoteDefinition i cs']) rest
  | .container k cs :: rest =>
    match fnGo st [] cs with
    | .error e => .error e
    | .ok (cs', st₁) => fnGo st₁ (acc ++ [.container k cs']) rest

/-- The whole engine: a fresh registry, the chapter pass run to
completion, then the footnote pass sharing the same registry (lines
34-223).  The arguments are the children lists of the two root nodes. -/
def runPasses (chapC fnC : List MNode) : Except Err (List MNode × List MNode × St) :=
  match chapRunList chapC St0 with
  | .error e => .error e
  | .ok (c', st₁) =>
    match fnGo st₁ [] fnC with
    | .error e => .error e
    | .ok (f', st₂) => .ok (c', f', st₂)

/-- The output stage, lines 225-242: only after both passes succeed are
the two per-file markdown documents and their concatenation written;
serialization itself is the external `toMarkdown`, so each emitted file
is modelled by the tree it serializes (the combined file by the
concatenation of the two trees).  A thrown error reaches the top level
before any `writeFile` call, so nothing is emitted. -/
def emittedFiles (chapC fnC : List MNode) : List (String × List MNode) :=
  match runPasses chapC fnC with
  | .error _ => []
  | .ok (c', f', _) =>
    [("chapter001.md", c'), ("chapter001-fn.md", f'), ("parts-combined.md", c' ++ f')]

/-- All identifiers of `footnoteReference` nodes in a forest, in
document order. -/
def refIdsList : List MNode → List String
  | [] => []
  | .footnoteReference i :: rest => i :: refIdsList rest
  | .link _ cs :: rest => refIdsList cs ++ refIdsList rest
  | .footnoteDefinition _ cs :: rest => refIdsList cs ++ refIdsList rest
  | .container _ cs :: rest => refIdsList cs ++ refIdsList rest
  | .text _ :: rest => refIdsList rest
  | .html _ :: rest => refIdsList rest

/-- All identifiers of `footnoteDefinition` nodes in a forest, in
document order. -/
def defIdsList : List MNode → List String
  | [] => []
  | .footnoteDefinition i cs :: rest => i :: (defIdsList cs ++ defIdsList rest)
  | .link _ cs :: rest => defIdsList cs ++ defIdsList rest
  | .container _ cs :: rest => defIdsList cs ++ defIdsList rest
  | .footnoteReference _ :: rest => defIdsList rest
  | .text _ :: rest => defIdsList rest
  | .html _ :: rest => defIdsList rest

/-- A forest free of footnote nodes (the input contract: trees produced
by the markup loader contain no `footnoteReference` or
`footnoteDefinition` nodes). -/
def fnFreeList : List MNode → Bool
  | [] => true
  | .footnoteReference _ :: _ => false
  | .footnoteDefinition _ _ :: _ => false
  | .link _ cs :: rest => fnFreeList cs && fnFreeList rest
  | .container _ cs :: rest => fnFreeList cs && fnFreeList rest
  | .text _ :: rest => fnFreeList rest
  | .html _ :: rest => fnFreeList rest

/-- A forest containing no `link` node (every link was classified). -/
def linkFreeList : List MNode → Bool
  | [] => true
  | .link _ _ :: _ => false
  | .footnoteDefinition _ cs :: rest => linkFreeList cs && linkFreeList rest
  | .container _ cs :: rest => linkFreeList cs && linkFreeList rest
  | .footnoteReference _ :: rest => linkFreeList rest
  | .text _ :: rest => linkFreeList rest
  | .html _ :: rest => linkFreeList rest

/-- hast nodes, restricted to what `collectReferencedUrls` inspects: an
element carries its tag name, an optional string `href` property
(non-string or missing properties become `none`) and children; every
non-element node is `other`. -/
inductive HNode where
  | element (tagName : String) (href : Option String) (children : List HNode)
  | other (children : List HNode)
deriving Repr

/-- JS `Set.prototype.add` on an insertion-ordered set. -/
def setAdd (l : List String) (x : String) : List String :=
  if l.contains x then l else l ++ [x]

/-- One element's contribution to the referenced-url set (the body of
the visitor at lines 303-310): an `a` element with a non-empty string
`href` not starting with `http` adds the part of its href before `#`. -/
def collectUrlAdd (acc : List String) (tag : String) (href : Option String) : List String :=
  if tag = "a" then
    match href with
    | some h =>
      if h.length > 0 ∧ ¬strStartsWith h "http" then setAdd acc ((splitUrl h).1) else acc
    | none => acc
  else acc

/-- The `visit(hast, "element", ...)` walk of lines 302-311. -/
def collectUrlsList (acc : List String) : List HNode → List String
  | [] => acc
  | .element tag href cs :: rest =>
    collectUrlsList (collectUrlsList (collectUrlAdd acc tag href) cs) rest
  | .other cs :: rest => collectUrlsList (collectUrlsList acc cs) rest

/-- `collectReferencedUrls` (lines 300-329): enumerate the distinct
referenced files and fail when their number exceeds 2 for the footnote
container, or 1 for the chapter. -/
def collectReferencedUrls (root : HNode) (isFootnotesFile : Bool) : Except Err (List String) :=
  let urls := collectUrlsList [] [root]
  if isFootnotesFile then
    if urls.length > 2 then .error .tooManyReferencedFiles else .ok urls
  else if urls.length > 1 then .error .tooManyReferencedFiles else .ok urls

/-! ## Basic lemmas about the registry and the allocator -/

theorem mapGet_mapSet (m : List (String × String)) (k v k' : String) :
    mapGet (mapSet m k v) k' = if k = k' then some v else mapGet m k' := by
  induction m with
  | nil =>
    by_cases h : k = k' <;> simp [mapSet, mapGet, h]
  | cons p rest ih =>
    obtain ⟨a, b⟩ := p
    by_cases ha : a = k
    · subst ha
      by_cases h : a = k' <;> simp [mapSet, mapGet, h]
    · by_cases h : a = k'
      · subst h
        have : ¬k = a := fun hh => ha hh.symm
        simp [mapSet, mapGet, ha, this]
      · simp [mapSet, mapGet, ha, h, ih]

theorem growLoop_some_not_contains (used : List String) (pfx desired : String) :
    ∀ fuel f i r, growLoop used pfx desired f i fuel = some r → used.contains r = false := by
  intro fuel
  induction fuel with
  | zero => intro f i r h; simp [growLoop] at h
  | succ n ih =>
    intro f i r h
    rw [growLoop] at h
    split at h
    · exact ih _ _ _ h
    · next hc =>
      injection h with h
      subst h
      exact eq_false_of_ne_true hc

/-- A successful allocation returns an identifier that was not yet used
and registers exactly it. -/
theorem allocateWith_ok (pfx : String) (used : List String) (lbl fid : String)
    (used' : List String) (h : allocateWith pfx used lbl = .ok (fid, used')) :
    used.contains fid = false ∧ used' = fid :: used := by
  simp only [allocateWith] at h
  split at h
  · split at h
    · cases h
    · split at h
      · next r hg =>
        cases h
        exact ⟨growLoop_some_not_contains _ _ _ _ _ _ _ hg, rfl⟩
      · cases h
  · next hc =>
    cases h
    exact ⟨eq_false_of_ne_true hc, rfl⟩

/-- Anatomy of a successful chapter-pass visitor call: the url split into
a known file and a non-empty target, the label read, a fresh identifier
allocated without consulting the target map, the map overwritten at the
target, and the node replaced by a footnote reference. -/
theorem chapLinkStep_ok (st : St) (url : String) (cs : List MNode) (n : MNode) (st' : St)
    (h : chapLinkStep st url cs = .ok (n, st')) :
    ∃ t lbl fid, (splitUrl url).1 = file2 ∧ (splitUrl url).2 = some t ∧ t ≠ "" ∧
      labelValue cs = .ok lbl ∧
      allocateWith "ast" st.used lbl = .ok (fid, st'.used) ∧
      n = .footnoteReference fid ∧ st'.targets = mapSet st.targets t fid := by
  simp only [chapLinkStep] at h
  split at h
  · cases h
  · next hfile =>
    split at h
    · cases h
    · next t hsp =>
      split at h
      · cases h
      · split at h
        · cases h
        · split at h
          · cases h
          · next lbl hlbl =>
            split at h
            · cases h
            · next p halloc =>
              cases h
              exact ⟨t, lbl, p.1, by simpa using hfile, hsp, by assumption, hlbl,
                by simpa using halloc, rfl, rfl⟩

/-- Anatomy of a successful footnote-pass reference branch. -/
theorem fnRefStep_ok (st : St) (cs : List MNode) (t : String) (n : MNode) (st' : St)
    (h : fnRefStep st cs t = .ok (n, st')) :
    ∃ lbl fid, labelValue cs = .ok lbl ∧
      allocateWith "fn-ast" st.used lbl = .ok (fid, st'.used) ∧
      n = .footnoteReference fid ∧ st'.targets = mapSet st.targets t fid := by
  simp only [fnRefStep] at h
  split at h
  · cases h
  · next lbl hlbl =>
    split at h
    · cases h
    · next p halloc =>
      cases h
      exact ⟨lbl, p.1, hlbl, by simpa using halloc, rfl, rfl⟩

/-- A truthy previous-sibling identifier always comes out of the shared
target map. -/
theorem prevIdentifier_some (tm : List (String × String)) (prev : MNode) (v : String)
    (h : prevIdentifier tm prev = some v) : ∃ m, mapGet tm m = some v := by
  unfold prevIdentifier at h
  split at h
  · split at h
    · exact ⟨_, h⟩
    · cases h
  · cases h

/-! ## Append lemmas for the tree-measuring functions -/

theorem refIdsList_append (a b : List MNode) :
    refIdsList (a ++ b) = refIdsList a ++ refIdsList b := by
  induction a with
  | nil => simp [refIdsList]
  | cons n rest ih => cases n <;> simp [refIdsList, ih]

theorem defIdsList_append (a b : List MNode) :
    defIdsList (a ++ b) = defIdsList a ++ defIdsList b := by
  induction a with
  | nil => simp [defIdsList]
  | cons n rest ih => cases n <;> simp [defIdsList, ih]

theorem fnFreeList_append (a b : List MNode) :
    fnFreeList (a ++ b) = (fnFreeList a && fnFreeList b) := by
  induction a with
  | nil => simp [fnFreeList]
  | cons n rest ih => cases n <;> simp [fnFreeList, ih, Bool.and_assoc]

theorem linkFreeList_append (a b : List MNode) :
    linkFreeList (a ++ b) = (linkFreeList a && linkFreeList b) := by
  induction a with
  | nil => simp [linkFreeList]
  | cons n rest ih => cases n <;> simp [linkFreeList, ih, Bool.and_assoc]

/-! ## The chapter-pass invariant -/

theorem chap_invariant (l : List MNode) (st : St) :
    ∀ (C : List String) (out : List MNode) (st' : St),
      fnFreeList l = true →
      C.Nodup →
      (∀ i ∈ C, i ∈ st.used) →
      (∀ k v, mapGet st.targets k = some v → v ∈ C) →
      chapRunList l st = .ok (out, st') →
      (C ++ refIdsList out).Nodup ∧
      (∀ i ∈ C ++ refIdsList out, i ∈ st'.used) ∧
      (∀ k v, mapGet st'.targets k = some v → v ∈ C ++ refIdsList out) ∧
      defIdsList out = [] := by
  induction l, st using chapRunList.induct with
  | case1 st =>
    intro C out st' hfree hnd hsub hmap h
    rw [chapRunList] at h
    cases h
    simpa [refIdsList, defIdsList] using ⟨hnd, hsub, hmap⟩
  | case2 st url cs rest e hstep =>
    intro C out st' hfree hnd hsub hmap h
    simp only [chapRunList, hstep] at h
    cases h
  | case3 st url cs rest n st₁ hstep e hrest ih =>
    intro C out st' hfree hnd hsub hmap h
    simp only [chapRunList, hstep, hrest] at h
    cases h
  | case4 st url cs rest n st₁ hstep rest' st₂ hrest ih =>
    intro C out st' hfree hnd hsub hmap h
    simp only [chapRunList, hstep, hrest] at h
    cases h
    obtain ⟨t, lbl, fid, hf2, hsp, ht, hlbl, halloc, hn, htm⟩ :=
      chapLinkStep_ok _ _ _ _ _ hstep
    obtain ⟨hfresh, hused⟩ := allocateWith_ok _ _ _ _ _ halloc
    subst hn
    have hfree' : fnFreeList rest = true := by
      simp [fnFreeList] at hfree; exact hfree.2
    have hfid_not_used : fid ∉ st.used := by simpa using hfresh
    have hnd' : (C ++ [fid]).Nodup := by
      rw [List.nodup_append]
      refine ⟨hnd, List.nodup_singleton _, ?_⟩
      intro a ha hb
      simp at hb
      subst hb
      exact hfid_not_used (hsub _ ha)
    have hsub' : ∀ i ∈ C ++ [fid], i ∈ st₁.used := by
      intro i hi
      rw [hused]
      rcases List.mem_append.1 hi with hi | hi
      · exact List.mem_cons_of_mem _ (hsub _ hi)
      · simp at hi; subst hi; exact List.mem_cons_self _ _
    have hmap' : ∀ k v, mapGet st₁.targets k = some v → v ∈ C ++ [fid] := by
      intro k v hv
      rw [htm, mapGet_mapSet] at hv
      split at hv
      · injection hv with hv; subst hv; simp
      · exact List.mem_append.2 (Or.inl (hmap _ _ hv))
    obtain ⟨ind, isub, imap, idefs⟩ := ih (C ++ [fid]) rest' st₂ hfree' hnd' hsub' hmap' hrest
    refine ⟨?_, ?_, ?_, ?_⟩
    · simpa [refIdsList, List.append_assoc] using ind
    · intro i hi
      apply isub
      simpa [refIdsList, List.append_assoc] using hi
    · intro k v hv
      have := imap k v hv
      simpa [refIdsList, List.append_assoc] using this
    · simpa [defIdsList] using idefs
  | case5 st v rest e hrest ih =>
    intro C out st' hfree hnd hsub hmap h
    simp only [chapRunList, hrest] at h
    cases h
  | case6 st v rest rest' st₂ hrest ih =>
    intro C out st' hfree hnd hsub hmap h
    simp only [chapRunList, hrest] at h
    cases h
    have hfree' : fnFreeList rest = true := by simpa [fnFreeList] using hfree
    obtain ⟨ind, isub, imap, idefs⟩ := ih C rest' st₂ hfree' hnd hsub hmap hrest
    exact ⟨by simpa [refIdsList] using ind, by simpa [refIdsList] using isub,
      by simpa [refIdsList] using imap, by simpa [defIdsList] using idefs⟩
  | case7 st v rest e hrest ih =>
    intro C out st' hfree hnd hsub hmap h
    simp only [chapRunList, hrest] at h
    cases h
  | case8 st v rest rest' st₂ hrest ih =>
    intro C out st' hfree hnd hsub hmap h
    simp only [chapRunList, hrest] at h
    cases h
    have hfree' : fnFreeList rest = true := by simpa [fnFreeList] using hfree
    obtain ⟨ind, isub, imap, idefs⟩ := ih C rest' st₂ hfree' hnd hsub hmap hrest
    exact ⟨by simpa [refIdsList] using ind, by simpa [refIdsList] using isub,
      by simpa [refIdsList] using imap, by simpa [defIdsList] using idefs⟩
  | case9 st i rest e hrest ih =>
    intro C out st' hfree hnd hsub hmap h
    simp [fnFreeList] at hfree
  | case10 st i rest rest' st₂ hrest ih =>
    intro C out st' hfree hnd hsub hmap h
    simp [fnFreeList] at hfree
  | case11 st i cs rest e hcs ih =>
    intro C out st' hfree hnd hsub hmap h
    simp [fnFreeList] at hfree
  | case12 st i cs rest cs' st₂ hcs e hrest ih1 ih2 =>
    intro C out st' hfree hnd hsub hmap h
    simp [fnFreeList] at hfree
  | case13 st i cs rest cs' st₂ hcs rest' st₃ hrest ih1 ih2 =>
    intro C out st' hfree hnd hsub hmap h
    simp [fnFreeList] at hfree
  | case14 st k cs rest e hcs ih =>
    intro C out st' hfree hnd hsub hmap h
    simp only [chapRunList, hcs] at h
    cases h
  | case15 st k cs rest cs' st₂ hcs e hrest ih1 ih2 =>
    intro C out st' hfree hnd hsub hmap h
    simp only [chapRunList, hcs, hrest] at h
    cases h
  | case16 st k cs rest cs' st₂ hcs rest' st₃ hrest ih1 ih2 =>
    intro C out st' hfree hnd hsub hmap h
    simp only [chapRunList, hcs, hrest] at h
    cases h
    have hfree1 : fnFreeList cs = true := by
      simp [fnFreeList] at hfree; exact hfree.1
    have hfree2 : fnFreeList rest = true := by
      simp [fnFreeList] at hfree; exact hfree.2
    obtain ⟨ind1, isub1, imap1, idefs1⟩ := ih1 C cs' st₂ hfree1 hnd hsub hmap hcs
    obtain ⟨ind2, isub2, imap2, idefs2⟩ :=
      ih2 (C ++ refIdsList cs') rest' st₃ hfree2 ind1 isub1 imap1 hrest
    refine ⟨?_, ?_, ?_, ?_⟩
    · simpa [refIdsList, List.append_assoc] using ind2
    · intro i hi
      apply isub2
      simpa [refIdsList, List.append_assoc] using hi
    · intro k' v hv
      have := imap2 k' v hv
      simpa [refIdsList, List.append_assoc] using this
    · simp [defIdsList, idefs1, idefs2]

/-! ## The footnote-pass invariant -/

theorem prevIdentifier_some' (tm : List (String × String)) (prev : MNode) (v : String)
    (h : prevIdentifier tm prev = some v) :
    ∃ c m, prev = .html c ∧ mapGet tm m = some v := by
  unfold prevIdentifier at h
  split at h
  · split at h
    · exact ⟨_, _, rfl, h⟩
    · cases h
  · cases h

theorem fn_invariant (st : St) (acc l : List MNode) :
    ∀ (C : List String) (out : List MNode) (st' : St),
      fnFreeList l = true →
      (C ++ refIdsList acc).Nodup →
      (∀ i ∈ C ++ refIdsList acc, i ∈ st.used) →
      (∀ k v, mapGet st.targets k = some v → v ∈ C ++ refIdsList acc) →
      (∀ d ∈ defIdsList acc, d ∈ C ++ refIdsList acc) →
      fnGo st acc l = .ok (out, st') →
      (C ++ refIdsList out).Nodup ∧
      (∀ i ∈ C ++ refIdsList out, i ∈ st'.used) ∧
      (∀ k v, mapGet st'.targets k = some v → v ∈ C ++ refIdsList out) ∧
      (∀ d ∈ defIdsList out, d ∈ C ++ refIdsList out) := by
  induction st, acc, l using fnGo.induct with
  | case1 st acc =>
    intro C out st' hfree hnd hsub hmap hdefs h
    rw [fnGo] at h
    cases h
    exact ⟨hnd, hsub, hmap, hdefs⟩
  | case2 st acc url cs rest hext =>
    intro C out st' hfree hnd hsub hmap hdefs h
    rw [fnGo] at h
    simp only [if_pos hext] at h
    cases h
  | case3 st acc url cs rest hext hsp =>
    intro C out st' hfree hnd hsub hmap hdefs h
    rw [fnGo] at h
    simp only [if_neg hext, hsp] at h
    cases h
  | case4 st acc url cs rest hext hsp =>
    intro C out st' hfree hnd hsub hmap hdefs h
    rw [fnGo] at h
    simp only [if_neg hext, hsp] at h
    simp at h
  | case5 st acc url cs rest hext t hsp ht a hcc =>
    intro C out st' hfree hnd hsub hmap hdefs h
    rw [fnGo] at h
    simp only [if_neg hext, hsp, if_neg ht, hcc] at h
    cases h
  | case6 st acc url cs rest hext t hsp ht a hcc hlast =>
    intro C out st' hfree hnd hsub hmap hdefs h
    rw [fnGo] at h
    simp only [if_neg hext, hsp, if_neg ht, hcc, hlast] at h
    cases h
  | case7 st acc url cs rest hext t hsp ht a hcc prevSib hlast e href hprev =>
    intro C out st' hfree hnd hsub hmap hdefs h
    rw [fnGo] at h
    simp only [if_neg hext, hsp, if_neg ht, hcc, hlast, hprev, href] at h
    simp at h
  | case8 st acc url cs rest hext t hsp ht a hcc prevSib hlast n st₁ href hprev ih =>
    intro C out st' hfree hnd hsub hmap hdefs h
    rw [fnGo] at h
    simp only [if_neg hext, hsp, if_neg ht, hcc, hlast, hprev, href] at h
    -- reference branch with the falsy empty mapped identifier
    obtain ⟨lbl, fid, hlbl, halloc, hn, htm⟩ := fnRefStep_ok _ _ _ _ _ href
    obtain ⟨hfresh, hused⟩ := allocateWith_ok _ _ _ _ _ halloc
    subst hn
    have hfree' : fnFreeList rest = true := by
      simp [fnFreeList] at hfree; exact hfree.2
    have hfid_not_used : fid ∉ st.used := by simpa using hfresh
    have hnd' : (C ++ refIdsList (acc ++ [MNode.footnoteReference fid])).Nodup := by
      rw [refIdsList_append, ← List.append_assoc]
      rw [List.nodup_append]
      refine ⟨hnd, by simp [refIdsList], ?_⟩
      intro x hx hx2
      simp [refIdsList] at hx2
      subst hx2
      exact hfid_not_used (hsub _ hx)
    have hsub' : ∀ i ∈ C ++ refIdsList (acc ++ [MNode.footnoteReference fid]), i ∈ st₁.used := by
      intro i hi
      rw [hused]
      rw [refIdsList_append, ← List.append_assoc] at hi
      rcases List.mem_append.1 hi with hi | hi
      · exact List.mem_cons_of_mem _ (hsub _ hi)
      · simp [refIdsList] at hi; subst hi; exact List.mem_cons_self _ _
    have hmap' : ∀ k v, mapGet st₁.targets k = some v →
        v ∈ C ++ refIdsList (acc ++ [MNode.footnoteReference fid]) := by
      intro k v hv
      rw [htm, mapGet_mapSet] at hv
      rw [refIdsList_append, ← List.append_assoc]
      split at hv
      · injection hv with hv; subst hv; simp [refIdsList]
      · exact List.mem_append.2 (Or.inl (hmap _ _ hv))
    have hdefs' : ∀ d ∈ defIdsList (acc ++ [MNode.footnoteReference fid]),
        d ∈ C ++ refIdsList (acc ++ [MNode.footnoteReference fid]) := by
      intro d hd
      rw [defIdsList_append] at hd
      simp [defIdsList] at hd
      rw [refIdsList_append, ← List.append_assoc]
      exact List.mem_append.2 (Or.inl (hdefs _ hd))
    exact ih C out st' hfree' hnd' hsub' hmap' hdefs' h
  | case9 st acc url cs rest hext t hsp ht a hcc prevSib hlast finalId hprev hne ih =>
    intro C out st' hfree hnd hsub hmap hdefs h
    rw [fnGo] at h
    simp only [if_neg hext, hsp, if_neg ht, hcc, hlast, hprev, if_neg hne] at h
    -- definition branch
    obtain ⟨c, m, hprevhtml, hm⟩ := prevIdentifier_some' _ _ _ hprev
    obtain ⟨ys, hys⟩ := List.getLast?_eq_some_iff.1 hlast
    subst hprevhtml
    have hdrop : acc.dropLast = ys := by rw [hys, List.dropLast_concat]
    have hrefacc : refIdsList acc = refIdsList ys := by
      rw [hys, refIdsList_append]; simp [refIdsList]
    have hdefacc : defIdsList acc = defIdsList ys := by
      rw [hys, defIdsList_append]; simp [defIdsList]
    have hfree' : fnFreeList rest = true := by
      simp [fnFreeList] at hfree; exact hfree.2
    have hval : finalId ∈ C ++ refIdsList acc := hmap _ _ hm
    have hnd' : (C ++ refIdsList (acc.dropLast ++ [MNode.footnoteDefinition finalId []])).Nodup := by
      rw [hdrop, refIdsList_append]
      simp only [refIdsList, List.append_nil]
      rw [← hrefacc]
      exact hnd
    have hsub' : ∀ i ∈ C ++ refIdsList (acc.dropLast ++ [MNode.footnoteDefinition finalId []]),
        i ∈ st.used := by
      intro i hi
      apply hsub
      rw [hdrop, refIdsList_append] at hi
      simpa only [refIdsList, List.append_nil, ← hrefacc] using hi
    have hmap' : ∀ k v, mapGet st.targets k = some v →
        v ∈ C ++ refIdsList (acc.dropLast ++ [MNode.footnoteDefinition finalId []]) := by
      intro k v hv
      have := hmap _ _ hv
      rw [hdrop, refIdsList_append]
      simpa only [refIdsList, List.append_nil, ← hrefacc] using this
    have hdefs' : ∀ d ∈ defIdsList (acc.dropLast ++ [MNode.footnoteDefinition finalId []]),
        d ∈ C ++ refIdsList (acc.dropLast ++ [MNode.footnoteDefinition finalId []]) := by
      intro d hd
      rw [hdrop, defIdsList_append] at hd
      simp only [defIdsList, List.append_nil] at hd
      rw [hdrop, refIdsList_append]
      simp only [refIdsList, List.append_nil, ← hrefacc]
      rcases List.mem_append.1 hd with hd | hd
      · exact hdefs _ (by rw [hdefacc]; exact hd)
      · simp at hd; subst hd; exact hval
    exact ih C out st' hfree' hnd' hsub' hmap' hdefs' h
  | case10 st acc url cs rest hext t hsp ht a hcc prevSib hlast hprev e href =>
    intro C out st' hfree hnd hsub hmap hdefs h
    rw [fnGo] at h
    simp only [if_neg hext, hsp, if_neg ht, hcc, hlast, hprev, href] at h
    cases h
  | case11 st acc url cs rest hext t hsp ht a hcc prevSib hlast hprev n st₁ href ih =>
    intro C out st' hfree hnd hsub hmap hdefs h
    rw [fnGo] at h
    simp only [if_neg hext, hsp, if_neg ht, hcc, hlast, hprev, href] at h
    obtain ⟨lbl, fid, hlbl, halloc, hn, htm⟩ := fnRefStep_ok _ _ _ _ _ href
    obtain ⟨hfresh, hused⟩ := allocateWith_ok _ _ _ _ _ halloc
    subst hn
    have hfree' : fnFreeList rest = true := by
      simp [fnFreeList] at hfree; exact hfree.2
    have hfid_not_used : fid ∉ st.used := by simpa using hfresh
    have hnd' : (C ++ refIdsList (acc ++ [MNode.footnoteReference fid])).Nodup := by
      rw [refIdsList_append, ← List.append_assoc]
      rw [List.nodup_append]
      refine ⟨hnd, by simp [refIdsList], ?_⟩
      intro x hx hx2
      simp [refIdsList] at hx2
      subst hx2
      exact hfid_not_used (hsub _ hx)
    have hsub' : ∀ i ∈ C ++ refIdsList (acc ++ [MNode.footnoteReference fid]), i ∈ st₁.used := by
      intro i hi
      rw [hused]
      rw [refIdsList_append, ← List.append_assoc] at hi
      rcases List.mem_append.1 hi with hi | hi
      · exact List.mem_cons_of_mem _ (hsub _ hi)
      · simp [refIdsList] at hi; subst hi; exact List.mem_cons_self _ _
    have hmap' : ∀ k v, mapGet st₁.targets k = some v →
        v ∈ C ++ refIdsList (acc ++ [MNode.footnoteReference fid]) := by
      intro k v hv
      rw [htm, mapGet_mapSet] at hv
      rw [refIdsList_append, ← List.append_assoc]
      split at hv
      · injection hv with hv; subst hv; simp [refIdsList]
      · exact List.mem_append.2 (Or.inl (hmap _ _ hv))
    have hdefs' : ∀ d ∈ defIdsList (acc ++ [MNode.footnoteReference fid]),
        d ∈ C ++ refIdsList (acc ++ [MNode.footnoteReference fid]) := by
      intro d hd
      rw [defIdsList_append] at hd
      simp [defIdsList] at hd
      rw [refIdsList_append, ← List.append_assoc]
      exact List.mem_append.2 (Or.inl (hdefs _ hd))
    exact ih C out st' hfree' hnd' hsub' hmap' hdefs' h
  | case12 st acc v rest ih =>
    intro C out st' hfree hnd hsub hmap hdefs h
    rw [fnGo] at h
    have hfree' : fnFreeList rest = true := by simpa [fnFreeList] using hfree
    refine ih C out st' hfree' ?_ ?_ ?_ ?_ h <;>
      simp only [refIdsList_append, defIdsList_append, refIdsList, defIdsList, List.append_nil]
    · exact hnd
    · exact hsub
    · exact hmap
    · exact hdefs
  | case13 st acc v rest ih =>
    intro C out st' hfree hnd hsub hmap hdefs h
    rw [fnGo] at h
    have hfree' : fnFreeList rest = true := by simpa [fnFreeList] using hfree
    refine ih C out st' hfree' ?_ ?_ ?_ ?_ h <;>
      simp only [refIdsList_append, defIdsList_append, refIdsList, defIdsList, List.append_nil]
    · exact hnd
    · exact hsub
    · exact hmap
    · exact hdefs
  | case14 st acc i rest ih =>
    intro C out st' hfree hnd hsub hmap hdefs h
    simp [fnFreeList] at hfree
  | case15 st acc i cs rest e hcs ih =>
    intro C out st' hfree hnd hsub hmap hdefs h
    simp [fnFreeList] at hfree
  | case16 st acc i cs rest cs' st₂ hcs ih1 ih2 =>
    intro C out st' hfree hnd hsub hmap hdefs h
    simp [fnFreeList] at hfree
  | case17 st acc k cs rest e hcs ih =>
    intro C out st' hfree hnd hsub hmap hdefs h
    rw [fnGo] at h
    simp only [hcs] at h
    cases h
  | case18 st acc k cs rest cs' st₂ hcs ih1 ih2 =>
    intro C out st' hfree hnd hsub hmap hdefs h
    rw [fnGo] at h
    simp only [hcs] at h
    have hfree1 : fnFreeList cs = true := by
      simp [fnFreeList] at hfree; exact hfree.1
    have hfree2 : fnFreeList rest = true := by
      simp [fnFreeList] at hfree; exact hfree.2
    obtain ⟨ind1, isub1, imap1, idefs1⟩ :=
      ih1 (C ++ refIdsList acc) cs' st₂ hfree1
        (by simpa [refIdsList] using hnd)
        (by intro i hi; apply hsub; simpa [refIdsList] using hi)
        (by intro k' v hv; have := hmap _ _ hv; simpa [refIdsList] using this)
        (by intro d hd; simp [defIdsList] at hd)
        hcs
    refine ih2 C out st' hfree2 ?_ ?_ ?_ ?_ h
    · simpa [refIdsList_append, refIdsList, List.append_assoc] using ind1
    · intro i hi
      apply isub1
      simpa [refIdsList_append, refIdsList, List.append_assoc] using hi
    · intro k' v hv
      have := imap1 _ _ hv
      simpa [refIdsList_append, refIdsList, List.append_assoc] using this
    · intro d hd
      rw [defIdsList_append] at hd
      simp only [defIdsList, List.append_nil] at hd
      rw [refIdsList_append]
      simp only [refIdsList, List.append_nil, ← List.append_assoc]
      rcases List.mem_append.1 hd with hd | hd
      · have := hdefs _ hd
        exact List.mem_append.2 (Or.inl this)
      · exact idefs1 _ hd

/-! ## Link-freeness and the run-level invariant -/


theorem chap_linkFree (l : List MNode) (st : St) :
    ∀ (out : List MNode) (st' : St),
      chapRunList l st = .ok (out, st') → linkFreeList out = true := by
  induction l, st using chapRunList.induct with
  | case1 st =>
    intro out st' h; rw [chapRunList] at h; cases h; simp [linkFreeList]
  | case2 st url cs rest e hstep =>
    intro out st' h; simp only [chapRunList, hstep] at h; cases h
  | case3 st url cs rest n st₁ hstep e hrest ih =>
    intro out st' h; simp only [chapRunList, hstep, hrest] at h; cases h
  | case4 st url cs rest n st₁ hstep rest' st₂ hrest ih =>
    intro out st' h
    simp only [chapRunList, hstep, hrest] at h
    cases h
    obtain ⟨t, lbl, fid, hf2, hsp, ht, hlbl, halloc, hn, htm⟩ := chapLinkStep_ok _ _ _ _ _ hstep
    subst hn
    simpa [linkFreeList] using ih _ _ hrest
  | case5 st v rest e hrest ih =>
    intro out st' h; simp only [chapRunList, hrest] at h; cases h
  | case6 st v rest rest' st₂ hrest ih =>
    intro out st' h
    simp only [chapRunList, hrest] at h
    cases h
    simpa [linkFreeList] using ih _ _ hrest
  | case7 st v rest e hrest ih =>
    intro out st' h; simp only [chapRunList, hrest] at h; cases h
  | case8 st v rest rest' st₂ hrest ih =>
    intro out st' h
    simp only [chapRunList, hrest] at h
    cases h
    simpa [linkFreeList] using ih _ _ hrest
  | case9 st i rest e hrest ih =>
    intro out st' h; simp only [chapRunList, hrest] at h; cases h
  | case10 st i rest rest' st₂ hrest ih =>
    intro out st' h
    simp only [chapRunList, hrest] at h
    cases h
    simpa [linkFreeList] using ih _ _ hrest
  | case11 st i cs rest e hcs ih =>
    intro out st' h; simp only [chapRunList, hcs] at h; cases h
  | case12 st i cs rest cs' st₂ hcs e hrest ih1 ih2 =>
    intro out st' h; simp only [chapRunList, hcs, hrest] at h; cases h
  | case13 st i cs rest cs' st₂ hcs rest' st₃ hrest ih1 ih2 =>
    intro out st' h
    simp only [chapRunList, hcs, hrest] at h
    cases h
    simp [linkFreeList, ih1 _ _ hcs, ih2 _ _ hrest]
  | case14 st k cs rest e hcs ih =>
    intro out st' h; simp only [chapRunList, hcs] at h; cases h
  | case15 st k cs rest cs' st₂ hcs e hrest ih1 ih2 =>
    intro out st' h; simp only [chapRunList, hcs, hrest] at h; cases h
  | case16 st k cs rest cs' st₂ hcs rest' st₃ hrest ih1 ih2 =>
    intro out st' h
    simp only [chapRunList, hcs, hrest] at h
    cases h
    simp [linkFreeList, ih1 _ _ hcs, ih2 _ _ hrest]

theorem fn_linkFree (st : St) (acc l : List MNode) :
    ∀ (out : List MNode) (st' : St),
      linkFreeList acc = true →
      fnGo st acc l = .ok (out, st') → linkFreeList out = true := by
  induction st, acc, l using fnGo.induct with
  | case1 st acc =>
    intro out st' hacc h; rw [fnGo] at h; cases h; exact hacc
  | case2 st acc url cs rest hext =>
    intro out st' hacc h; rw [fnGo] at h; simp only [if_pos hext] at h; cases h
  | case3 st acc url cs rest hext hsp =>
    intro out st' hacc h; rw [fnGo] at h; simp only [if_neg hext, hsp] at h; cases h
  | case4 st acc url cs rest hext hsp =>
    intro out st' hacc h; rw [fnGo] at h; simp only [if_neg hext, hsp] at h; simp at h
  | case5 st acc url cs rest hext t hsp ht a hcc =>
    intro out st' hacc h; rw [fnGo] at h
    simp only [if_neg hext, hsp, if_neg ht, hcc] at h; cases h
  | case6 st acc url cs rest hext t hsp ht a hcc hlast =>
    intro out st' hacc h; rw [fnGo] at h
    simp only [if_neg hext, hsp, if_neg ht, hcc, hlast] at h; cases h
  | case7 st acc url cs rest hext t hsp ht a hcc prevSib hlast e href hprev =>
    intro out st' hacc h; rw [fnGo] at h
    simp only [if_neg hext, hsp, if_neg ht, hcc, hlast, hprev, href] at h; simp at h
  | case8 st acc url cs rest hext t hsp ht a hcc prevSib hlast n st₁ href hprev ih =>
    intro out st' hacc h; rw [fnGo] at h
    simp only [if_neg hext, hsp, if_neg ht, hcc, hlast, hprev, href] at h
    obtain ⟨lbl, fid, hlbl, halloc, hn, htm⟩ := fnRefStep_ok _ _ _ _ _ href
    subst hn
    exact ih _ _ (by simp [linkFreeList_append, linkFreeList, hacc]) h
  | case9 st acc url cs rest hext t hsp ht a hcc prevSib hlast finalId hprev hne ih =>
    intro out st' hacc h; rw [fnGo] at h
    simp only [if_neg hext, hsp, if_neg ht, hcc, hlast, hprev, if_neg hne] at h
    obtain ⟨ys, hys⟩ := List.getLast?_eq_some_iff.1 hlast
    have hdrop : acc.dropLast = ys := by rw [hys, List.dropLast_concat]
    have hys_free : linkFreeList ys = true := by
      rw [hys, linkFreeList_append] at hacc
      exact (Bool.and_eq_true_iff.1 hacc).1
    exact ih _ _ (by rw [hdrop]; simp [linkFreeList_append, linkFreeList, hys_free]) h
  | case10 st acc url cs rest hext t hsp ht a hcc prevSib hlast hprev e href =>
    intro out st' hacc h; rw [fnGo] at h
    simp only [if_neg hext, hsp, if_neg ht, hcc, hlast, hprev, href] at h; cases h
  | case11 st acc url cs rest hext t hsp ht a hcc prevSib hlast hprev n st₁ href ih =>
    intro out st' hacc h; rw [fnGo] at h
    simp only [if_neg hext, hsp, if_neg ht, hcc, hlast, hprev, href] at h
    obtain ⟨lbl, fid, hlbl, halloc, hn, htm⟩ := fnRefStep_ok _ _ _ _ _ href
    subst hn
    exact ih _ _ (by simp [linkFreeList_append, linkFreeList, hacc]) h
  | case12 st acc v rest ih =>
    intro out st' hacc h; rw [fnGo] at h
    exact ih _ _ (by simp [linkFreeList_append, linkFreeList, hacc]) h
  | case13 st acc v rest ih =>
    intro out st' hacc h; rw [fnGo] at h
    exact ih _ _ (by simp [linkFreeList_append, linkFreeList, hacc]) h
  | case14 st acc i rest ih =>
    intro out st' hacc h; rw [fnGo] at h
    exact ih _ _ (by simp [linkFreeList_append, linkFreeList, hacc]) h
  | case15 st acc i cs rest e hcs ih =>
    intro out st' hacc h; rw [fnGo] at h; simp only [hcs] at h; cases h
  | case16 st acc i cs rest cs' st₂ hcs ih1 ih2 =>
    intro out st' hacc h; rw [fnGo] at h; simp only [hcs] at h
    have h1 : linkFreeList cs' = true := ih1 _ _ (by simp [linkFreeList]) hcs
    exact ih2 _ _ (by simp [linkFreeList_append, linkFreeList, hacc, h1]) h
  | case17 st acc k cs rest e hcs ih =>
    intro out st' hacc h; rw [fnGo] at h; simp only [hcs] at h; cases h
  | case18 st acc k cs rest cs' st₂ hcs ih1 ih2 =>
    intro out st' hacc h; rw [fnGo] at h; simp only [hcs] at h
    have h1 : linkFreeList cs' = true := ih1 _ _ (by simp [linkFreeList]) hcs
    exact ih2 _ _ (by simp [linkFreeList_append, linkFreeList, hacc, h1]) h

/-- The combined invariant of a successful run: reference identifiers are
unique across both mutated trees, the chapter tree has no definitions,
and every definition identifier is among the reference identifiers. -/
theorem runPasses_invariant (chapC fnC c' f' : List MNode) (st' : St)
    (hc : fnFreeList chapC = true) (hf : fnFreeList fnC = true)
    (h : runPasses chapC fnC = .ok (c', f', st')) :
    (refIdsList c' ++ refIdsList f').Nodup ∧
    defIdsList c' = [] ∧
    (∀ d ∈ defIdsList f', d ∈ refIdsList c' ++ refIdsList f') := by
  unfold runPasses at h
  cases h1 : chapRunList chapC St0 with
  | error e => simp only [h1] at h; cases h
  | ok p =>
    obtain ⟨c'', st₁⟩ := p
    simp only [h1] at h
    cases h2 : fnGo st₁ [] fnC with
    | error e => simp only [h2] at h; cases h
    | ok q =>
      obtain ⟨f'', st₂⟩ := q
      simp only [h2] at h
      obtain ⟨rfl, rfl, rfl⟩ : c'' = c' ∧ f'' = f' ∧ st₂ = st' := by
        simpa using h
      obtain ⟨cnd, csub, cmap, cdefs⟩ :=
        chap_invariant chapC St0 [] c'' st₁ hc (by simp) (by simp)
          (by intro k v hv; simp [mapGet, St0] at hv) h1
      obtain ⟨fnd, fsub, fmap, fdefs⟩ :=
        fn_invariant st₁ [] fnC (refIdsList c'') f'' st₂ hf
          (by simpa [refIdsList] using cnd)
          (by intro i hi; apply csub; simpa [refIdsList] using hi)
          (by intro k v hv; have := cmap _ _ hv; simpa [refIdsList] using this)
          (by intro d hd; simp [defIdsList] at hd)
          h2
      exact ⟨by simpa [refIdsList] using fnd, cdefs, by simpa [refIdsList] using fdefs⟩

/-! ## Termination of the identifier-growth loop -/

theorem decVal_append_digit (l : List Char) (c : Char) :
    decVal (l ++ [c]) = 10 * decVal l + (c.toNat - 48) := by
  simp [decVal, List.foldl_append]

theorem charVal_ofNat (d : Nat) (h : d < 10) : (Char.ofNat (48 + d)).toNat - 48 = d := by
  interval_cases d <;> decide

theorem decVal_natDecCharsAux (fuel : Nat) :
    ∀ n, n < fuel → decVal (natDecCharsAux fuel n) = n := by
  induction fuel with
  | zero => intro n h; omega
  | succ m ih =>
    intro n h
    rw [natDecCharsAux]
    by_cases h10 : n < 10
    · rw [if_pos h10]
      simpa [decVal] using charVal_ofNat n h10
    · rw [if_neg h10]
      have hdiv : n / 10 < m := by
        have := Nat.div_lt_self (show 0 < n by omega) (show 1 < 10 by omega)
        omega
      rw [decVal_append_digit, ih _ hdiv, charVal_ofNat _ (Nat.mod_lt _ (by omega))]
      omega

theorem decVal_natDecChars (n : Nat) : decVal (natDecChars n) = n :=
  decVal_natDecCharsAux (n + 1) n (by omega)

theorem natDec_injective : Function.Injective natDec := by
  intro a b h
  have h2 : natDecChars a = natDecChars b := congrArg String.data h
  have := congrArg decVal h2
  simpa [decVal_natDecChars] using this

theorem strRepeat_length (s : String) (n : Nat) :
    (strRepeat s n).length = n * s.length := by
  induction n with
  | zero => simp [strRepeat]
  | succ m ih => simp [strRepeat, ih]; ring

theorem string_length_pos_of_ne_empty (s : String) (h : s ≠ "") : 0 < s.length := by
  rcases s with ⟨data⟩
  cases data with
  | nil => exact absurd rfl h
  | cons c rest => simp [String.length]

theorem growCand_injective (pfx desired : String) (h : desired ≠ "") :
    Function.Injective (growCand pfx desired) := by
  intro a b hab
  unfold growCand at hab
  split at hab
  · have h2 : natDec a = natDec b := by
      have := congrArg String.data hab
      simp only [String.data_append] at this
      exact String.ext (List.append_cancel_left this)
    exact natDec_injective h2
  · have h2 := congrArg String.length hab
    rw [strRepeat_length, strRepeat_length] at h2
    exact Nat.eq_of_mul_eq_mul_right (string_length_pos_of_ne_empty _ h) h2

/-- Pigeonhole: among `used.length + 1` distinct candidate identifiers at
least one is not in `used`. -/
theorem exists_fresh_cand (used : List String) (pfx desired : String) (hne : desired ≠ "")
    (i : Nat) : ∃ k ≤ used.length, used.contains (growCand pfx desired (i + k)) = false := by
  by_contra hall
  push_neg at hall
  have hall' : ∀ k ≤ used.length, growCand pfx desired (i + k) ∈ used := by
    intro k hk
    have := hall k hk
    have h2 : used.contains (growCand pfx desired (i + k)) = true := by
      cases h3 : used.contains (growCand pfx desired (i + k)) with
      | false => exact absurd h3 this
      | true => rfl
    simpa using h2
  set cands : List String := (List.range (used.length + 1)).map (fun k => growCand pfx desired (i + k)) with hcands
  have hnodup : cands.Nodup := by
    refine List.Nodup.map ?_ (List.nodup_range _)
    intro a b hab
    have := growCand_injective pfx desired hne hab
    omega
  have hsubset : cands ⊆ used := by
    intro x hx
    rw [hcands] at hx
    simp only [List.mem_map, List.mem_range] at hx
    obtain ⟨k, hk, rfl⟩ := hx
    exact hall' k (by omega)
  have hlen : cands.length = used.length + 1 := by simp [hcands]
  have := (List.subperm_of_subset hnodup hsubset).length_le
  omega

/-- With fuel `used.length + 2` the identifier-growth loop always finds a
fresh identifier, for any non-empty base label. -/
theorem growLoop_reaches_fresh (used : List String) (pfx desired : String)
    (hne : desired ≠ "") :
    ∃ r, growLoop used pfx desired desired 2 (used.length + 2) = some r ∧
      used.contains r = false := by
  -- generic success lemma
  have main : ∀ fuel i f,
      (used.contains f = false ∨ ∃ k < fuel, used.contains (growCand pfx desired (i + k)) = false) →
      ∃ r, growLoop used pfx desired f i (fuel + 1) = some r ∧ used.contains r = false := by
    intro fuel
    induction fuel with
    | zero =>
      intro i f hf
      rcases hf with hf | ⟨k, hk, _⟩
      · have hfm : f ∉ used := by simpa using hf
        exact ⟨f, by rw [growLoop]; simp [hfm], hf⟩
      · omega
    | succ m ih =>
      intro i f hf
      by_cases hcf : used.contains f = true
      · have hstep : growLoop used pfx desired f i (m + 1 + 1) =
            growLoop used pfx desired (growCand pfx desired i) (i + 1) (m + 1) := by
          have hcm : f ∈ used := by simpa using hcf
          rw [growLoop]; simp [hcm]
        rcases hf with hf | ⟨k, hk, hfree⟩
        · rw [hcf] at hf; cases hf
        · rcases Nat.eq_zero_or_pos k with rfl | hkpos
          · -- the very next candidate is fresh
            rw [hstep]
            refine ih (i + 1) (growCand pfx desired i) (Or.inl ?_)
            simpa using hfree
          · obtain ⟨k', rfl⟩ : ∃ k', k = k' + 1 := ⟨k - 1, by omega⟩
            rw [hstep]
            refine ih (i + 1) (growCand pfx desired i) (Or.inr ⟨k', by omega, ?_⟩)
            have : i + 1 + k' = i + (k' + 1) := by omega
            rw [this]
            exact hfree
      · have hf0 : used.contains f = false := by
          cases h3 : used.contains f with
          | false => rfl
          | true => exact absurd h3 hcf
        have hfm : f ∉ used := by simpa using hf0
        exact ⟨f, by rw [growLoop]; simp [hfm], hf0⟩
  obtain ⟨k, hk, hfree⟩ := exists_fresh_cand used pfx desired hne 2
  exact main (used.length + 1) 2 desired (Or.inr ⟨k, by omega, hfree⟩)

/-! ## Claims about the allocator and the chapter pass -/


/-- A fresh (possibly substituted) label is allocated verbatim. -/
theorem allocateWith_fresh (pfx : String) (used : List String) (lbl : String)
    (h : used.contains (desiredOf pfx lbl) = false) :
    allocateWith pfx used lbl = .ok (desiredOf pfx lbl, desiredOf pfx lbl :: used) := by
  simp only [allocateWith]
  rw [if_neg (by intro hc; rw [h] at hc; simp at hc)]

/-- Allocating an already-used label whose (substituted) form parses to
a truthy integer fails. -/
theorem allocateWith_conflict (pfx : String) (used : List String) (lbl : String)
    (hin : used.contains (desiredOf pfx lbl) = true)
    (ht : jsParseIntTruthy (desiredOf pfx lbl) = true) :
    allocateWith pfx used lbl = .error (.conflictingNumeric (desiredOf pfx lbl)) := by
  simp only [allocateWith]
  rw [if_pos hin, if_pos ht]

/-- Evaluation of a successful chapter-pass visitor call from the
results of its components. -/
theorem chapLinkStep_eval (used : List String) (tm : List (String × String))
    (url : String) (cs : List MNode) (t lbl fid : String) (used' : List String)
    (hsp : splitUrl url = (file2, some t)) (ht : t ≠ "")
    (hcc : childrenCheck cs = .ok ()) (hlbl : labelValue cs = .ok lbl)
    (halloc : allocateWith "ast" used lbl = .ok (fid, used')) :
    chapLinkStep ⟨used, tm⟩ url cs = .ok (.footnoteReference fid, ⟨used', mapSet tm t fid⟩) := by
  simp only [chapLinkStep, hsp]
  rw [if_neg (show ¬file2 ≠ file2 from by simp)]
  simp only [if_neg ht, hcc, hlbl, halloc]

/-- **C1** (corrected).  The chapter-pass Classifier never reuses a
previously registered identifier: for every link it allocates afresh,
reading only `usedIdentifiers` — the target map `tm` is arbitrary and in
particular may already record the link's own target — and then
overwrites the target's entry with the new identifier.  Consequently two
chapter links at the same anchor target receive distinct identifiers
(see `c1_counterexample`). -/
theorem c1_chapter_pass_always_allocates (used : List String)
    (tm : List (String × String)) (url : String) (cs : List MNode)
    (t lbl fid : String) (used' : List String)
    (hsp : splitUrl url = (file2, some t)) (ht : t ≠ "")
    (hcc : childrenCheck cs = .ok ()) (hlbl : labelValue cs = .ok lbl)
    (halloc : allocateWith "ast" used lbl = .ok (fid, used')) :
    chapLinkStep ⟨used, tm⟩ url cs = .ok (.footnoteReference fid, ⟨used', mapSet tm t fid⟩) ∧
    used.contains fid = false :=
  ⟨chapLinkStep_eval used tm url cs t lbl fid used' hsp ht hcc hlbl halloc,
   (allocateWith_ok _ _ _ _ _ halloc).1⟩

/-- Witness for `c1_chapter_pass_always_allocates`: a concrete state in
which the target `"t"` is already mapped to `"old"`, yet the link is
allocated the fresh identifier `"a"` and the map entry is overwritten. -/
theorem c1_witness :
    chapLinkStep ⟨[], [("t", "old")]⟩ "chapter001-fn.xhtml#t" [.text "a"] =
      .ok (.footnoteReference "a", ⟨["a"], mapSet [("t", "old")] "t" "a"⟩) ∧
    ([] : List String).contains "a" = false :=
  c1_chapter_pass_always_allocates [] [("t", "old")] "chapter001-fn.xhtml#t"
    [.text "a"] "t" "a" "a" ["a"] rfl (by decide) rfl rfl rfl

/-- **C1** counterexample: two chapter links pointing at the same anchor
target `"t"` both labelled `"a"` receive the distinct identifiers `"a"`
and `"aa"`, and the target map ends up recording only the second one —
the Classifier did not reuse the previously registered identifier. -/
theorem c1_counterexample :
    chapRunList [.container "paragraph"
        [.link "chapter001-fn.xhtml#t" [.text "a"],
         .link "chapter001-fn.xhtml#t" [.text "a"]]] St0 =
      .ok ([.container "paragraph"
        [.footnoteReference "a", .footnoteReference "aa"]],
        ⟨["aa", "a"], [("t", "aa")]⟩) ∧ "a" ≠ "aa" := by
  constructor
  · have s1 : chapLinkStep St0 "chapter001-fn.xhtml#t" [.text "a"] =
        .ok (.footnoteReference "a", ⟨["a"], [("t", "a")]⟩) := rfl
    have s2 : chapLinkStep ⟨["a"], [("t", "a")]⟩ "chapter001-fn.xhtml#t" [.text "a"] =
        .ok (.footnoteReference "aa", ⟨["aa", "a"], [("t", "aa")]⟩) := rfl
    simp only [chapRunList, s1, s2]
  · decide

/-- **C4** counterexample: the label `"0"` parses as an integer, yet its
second allocation does not fail — it silently renames to `"00"`,
because the code tests the parsed number for truthiness and `0` is
falsy. -/
theorem c4_counterexample :
    jsParseInt "0" = some 0 ∧
    allocateWith "ast" [] "0" = .ok ("0", ["0"]) ∧
    allocateWith "ast" ["0"] "0" = .ok ("00", ["00", "0"]) :=
  ⟨rfl, rfl, rfl⟩

/-- **C4** (corrected).  For every label whose `parseInt` value is a
truthy (nonzero) integer, allocating the same label twice always fails:
the second allocation returns `ConflictingNumericIdentifierError` and
never silently renames.  (For labels parsing to `0` the check is
bypassed — see `c4_counterexample`.) -/
theorem c4_numeric_double_allocation_fails (pfx : String) (used : List String)
    (lbl fid : String) (used₁ : List String)
    (hstar : lbl ≠ "*") (htruthy : jsParseIntTruthy lbl = true)
    (h1 : allocateWith pfx used lbl = .ok (fid, used₁)) :
    allocateWith pfx used₁ lbl = .error (.conflictingNumeric lbl) := by
  have hdes : desiredOf pfx lbl = lbl := by simp [desiredOf, hstar]
  -- the first allocation cannot have hit the conflict branch, so the
  -- label was fresh and was registered verbatim
  have hnotin : used.contains lbl = false := by
    cases hcc : used.contains lbl with
    | false => rfl
    | true =>
      rw [allocateWith_conflict pfx used lbl (by rw [hdes]; exact hcc)
        (by rw [hdes]; exact htruthy)] at h1
      cases h1
  rw [allocateWith_fresh pfx used lbl (by rw [hdes]; exact hnotin)] at h1
  rw [hdes] at h1
  cases h1
  have := allocateWith_conflict pfx (lbl :: used) lbl
    (by rw [hdes]; simp) (by rw [hdes]; exact htruthy)
  rw [hdes] at this
  exact this

/-- Witness for `c4_numeric_double_allocation_fails` at the label `"7"`. -/
theorem c4_witness :
    allocateWith "ast" [] "7" = .ok ("7", ["7"]) ∧
    allocateWith "ast" ["7"] "7" = .error (.conflictingNumeric "7") :=
  ⟨rfl, c4_numeric_double_allocation_fails "ast" [] "7" "7" ["7"]
    (by decide) (by decide) rfl⟩

/-- **C7** (confirmed).  A chapter tree holding exactly two links both
labelled `*` (any well-formed urls into the footnote file): the engine,
started on the fresh registry, assigns the sentinel-derived identifiers
`ast1` to the first link and `ast2` to the second, in encounter
order. -/
theorem c7_two_asterisks_get_ast1_ast2 (k u1 u2 t1 t2 : String)
    (h1 : splitUrl u1 = (file2, some t1)) (ht1 : t1 ≠ "")
    (h2 : splitUrl u2 = (file2, some t2)) (ht2 : t2 ≠ "") :
    chapRunList [.container k [.link u1 [.text "*"], .link u2 [.text "*"]]] St0 =
      .ok ([.container k [.footnoteReference "ast1", .footnoteReference "ast2"]],
        ⟨["ast2", "ast1"], mapSet (mapSet [] t1 "ast1") t2 "ast2"⟩) := by
  have s1 : chapLinkStep St0 u1 [.text "*"] =
      .ok (.footnoteReference "ast1", ⟨["ast1"], mapSet [] t1 "ast1"⟩) :=
    chapLinkStep_eval [] [] u1 [.text "*"] t1 "*" "ast1" ["ast1"] h1 ht1 rfl rfl rfl
  have s2 : chapLinkStep ⟨["ast1"], mapSet [] t1 "ast1"⟩ u2 [.text "*"] =
      .ok (.footnoteReference "ast2", ⟨["ast2", "ast1"], mapSet (mapSet [] t1 "ast1") t2 "ast2"⟩) :=
    chapLinkStep_eval ["ast1"] (mapSet [] t1 "ast1") u2 [.text "*"] t2 "*" "ast2"
      ["ast2", "ast1"] h2 ht2 rfl rfl rfl
  simp only [chapRunList, s1, s2]

/-- Witness for `c7_two_asterisks_get_ast1_ast2` at concrete urls. -/
theorem c7_witness :
    chapRunList [.container "paragraph"
        [.link "chapter001-fn.xhtml#f1" [.text "*"],
         .link "chapter001-fn.xhtml#f2" [.text "*"]]] St0 =
      .ok ([.container "paragraph"
        [.footnoteReference "ast1", .footnoteReference "ast2"]],
        ⟨["ast2", "ast1"], mapSet (mapSet [] "f1" "ast1") "f2" "ast2"⟩) :=
  c7_two_asterisks_get_ast1_ast2 "paragraph" "chapter001-fn.xhtml#f1"
    "chapter001-fn.xhtml#f2" "f1" "f2" rfl (by decide) rfl (by decide)

/-- **C10** (confirmed).  For every non-empty base label the
identifier-growth `while` loop terminates — fuel `used.length + 2`
already suffices — and returns an identifier not previously in
`usedIdentifiers`; and the non-emptiness precondition is necessary:
with the empty label (whose repetitions are all empty) the loop never
exits, whatever the fuel. -/
theorem c10_growth_loop_terminates_iff_nonempty :
    (∀ (used : List String) (pfx desired : String), desired ≠ "" →
      ∃ r, growLoop used pfx desired desired 2 (used.length + 2) = some r ∧
        used.contains r = false) ∧
    (∀ fuel i, growLoop [""] "ast" "" "" i fuel = none) := by
  constructor
  · exact fun used pfx desired h => growLoop_reaches_fresh used pfx desired h
  · have hcand : ∀ i, growCand "ast" "" i = "" := by
      intro i
      have hrep : ∀ m, strRepeat "" m = "" := by
        intro m
        induction m with
        | zero => rfl
        | succ p ih => rw [strRepeat, ih]; decide
      simp [growCand, hrep, show strStartsWith "" "ast" = false from by decide]
    intro fuel
    induction fuel with
    | zero => intro i; rw [growLoop]
    | succ m ih =>
      intro i
      rw [growLoop]
      rw [if_pos (by decide), hcand]
      exact ih (i + 1)

/-- Witness for the first half of
`c10_growth_loop_terminates_iff_nonempty` at a concrete collision. -/
theorem c10_witness :
    ∃ r, growLoop ["a"] "ast" "a" "a" 2 (["a"].length + 2) = some r ∧
      (["a"] : List String).contains r = false :=
  c10_growth_loop_terminates_iff_nonempty.1 ["a"] "ast" "a" (by decide)

/-! ## Claims about the footnote pass and whole runs -/


theorem runPasses_ok_split (chapC fnC c' f' : List MNode) (st' : St)
    (h : runPasses chapC fnC = .ok (c', f', st')) :
    ∃ st₁, chapRunList chapC St0 = .ok (c', st₁) ∧ fnGo st₁ [] fnC = .ok (f', st') := by
  unfold runPasses at h
  cases h1 : chapRunList chapC St0 with
  | error e => simp only [h1] at h; cases h
  | ok p =>
    obtain ⟨c'', st₁⟩ := p
    simp only [h1] at h
    cases h2 : fnGo st₁ [] fnC with
    | error e => simp only [h2] at h; cases h
    | ok q =>
      obtain ⟨f'', st₂⟩ := q
      simp only [h2] at h
      obtain ⟨rfl, rfl, rfl⟩ : c'' = c' ∧ f'' = f' ∧ st₂ = st' := by simpa using h
      exact ⟨st₁, rfl, h2⟩

theorem runPasses_eval (chapC fnC c' f' : List MNode) (st₁ st₂ : St)
    (h1 : chapRunList chapC St0 = .ok (c', st₁))
    (h2 : fnGo st₁ [] fnC = .ok (f', st₂)) :
    runPasses chapC fnC = .ok (c', f', st₂) := by
  unfold runPasses
  simp only [h1, h2]

theorem runPasses_fnError (chapC fnC c' : List MNode) (st₁ : St) (e : Err)
    (h1 : chapRunList chapC St0 = .ok (c', st₁))
    (h2 : fnGo st₁ [] fnC = .error e) :
    runPasses chapC fnC = .error e := by
  unfold runPasses
  simp only [h1, h2]

/-- **C5** (corrected).  During the footnote pass, a link whose
immediately preceding sibling carries a *non-empty* identifier in
`targetToIdentifier` (the anchor-comment lookup of lines 157-164) is
replaced by a Footnote Definition with the looked-up identifier and
empty content, the Anchor Marker sibling is deleted (`splice`), no
Footnote Reference is emitted for the node, and the registry is left
untouched — the pass simply continues on the remaining siblings.  The
non-emptiness proviso is forced by the code's truthiness test
`if (identifier)`, see `c5_counterexample`. -/
theorem c5_definition_branch (st : St) (acc rest : List MNode) (url : String)
    (cs : List MNode) (t v : String) (prev : MNode)
    (hf : (splitUrl url).1 = file1 ∨ (splitUrl url).1 = file2)
    (hsp : (splitUrl url).2 = some t) (ht : t ≠ "")
    (hcc : childrenCheck cs = .ok ())
    (hlast : acc.getLast? = some prev)
    (hprev : prevIdentifier st.targets prev = some v) (hv : v ≠ "") :
    fnGo st acc (.link url cs :: rest) =
      fnGo st (acc.dropLast ++ [.footnoteDefinition v []]) rest := by
  rw [fnGo]
  rw [if_neg (by rcases hf with hf | hf <;> simp [hf])]
  simp only [hsp, if_neg ht, hcc, hlast, hprev, if_neg hv]

/-- Witness for `c5_definition_branch`: a recorded anchor comment
`<!-- t -->` immediately before a link turns the link into a definition
with the mapped identifier `"a"` and deletes the comment. -/
theorem c5_witness :
    fnGo ⟨["a"], [("t", "a")]⟩ [.html "<!-- t -->"]
        [.link "chapter001-fn.xhtml#u" [.text "1"]] =
      fnGo ⟨["a"], [("t", "a")]⟩
        ([MNode.html "<!-- t -->"].dropLast ++ [.footnoteDefinition "a" []]) [] :=
  c5_definition_branch ⟨["a"], [("t", "a")]⟩ [.html "<!-- t -->"] []
    "chapter001-fn.xhtml#u" [.text "1"] "u" "a" (.html "<!-- t -->")
    (Or.inr rfl) rfl (by decide) rfl rfl rfl (by decide)

/-- **C5** counterexample: the anchor id `"t"` *does* appear in
`targetToIdentifier` (mapped to the empty identifier allocated for an
empty-labelled chapter link), the comment `<!-- t -->` immediately
precedes the link, and yet the link is converted to a Footnote
Reference, the Anchor Marker survives and no Definition is created —
the truthiness test drops the recorded empty identifier. -/
theorem c5_counterexample :
    runPasses [.container "paragraph" [.link "chapter001-fn.xhtml#t" [.text ""]]]
      [.container "paragraph"
        [.html "<!-- t -->", .link "chapter001-fn.xhtml#u" [.text "x"]]] =
    .ok ([.container "paragraph" [.footnoteReference ""]],
      [.container "paragraph" [.html "<!-- t -->", .footnoteReference "x"]],
      ⟨["x", ""], [("t", ""), ("u", "x")]⟩) ∧
    mapGet [("t", ""), ("u", "x")] "t" = some "" := by
  constructor
  · have h1 : chapLinkStep St0 "chapter001-fn.xhtml#t" [.text ""] =
        .ok (.footnoteReference "", ⟨[""], [("t", "")]⟩) := rfl
    have h2 : prevIdentifier [("t", "")] (.html "<!-- t -->") = some "" := rfl
    have h3 : fnRefStep ⟨[""], [("t", "")]⟩ [.text "x"] "u" =
        .ok (.footnoteReference "x", ⟨["x", ""], [("t", ""), ("u", "x")]⟩) := rfl
    have h4 : splitUrl "chapter001-fn.xhtml#u" = ("chapter001-fn.xhtml", some "u") := rfl
    have h5 : childrenCheck [MNode.text "x"] = .ok () := rfl
    have hfn : fnGo ⟨[""], [("t", "")]⟩ []
        [.html "<!-- t -->", .link "chapter001-fn.xhtml#u" [.text "x"]] =
        .ok ([.html "<!-- t -->", .footnoteReference "x"],
          ⟨["x", ""], [("t", ""), ("u", "x")]⟩) := by
      rw [fnGo, fnGo]
      rw [h4, if_neg (by decide), h5]
      simp [h2, h3]
      rw [fnGo]
    have hchap : chapRunList
        [.container "paragraph" [.link "chapter001-fn.xhtml#t" [.text ""]]] St0 =
        .ok ([.container "paragraph" [.footnoteReference ""]], ⟨[""], [("t", "")]⟩) := by
      simp only [chapRunList, h1]
    have hfn2 : fnGo ⟨[""], [("t", "")]⟩ []
        [.container "paragraph"
          [.html "<!-- t -->", .link "chapter001-fn.xhtml#u" [.text "x"]]] =
        .ok ([.container "paragraph" [.html "<!-- t -->", .footnoteReference "x"]],
          ⟨["x", ""], [("t", ""), ("u", "x")]⟩) := by
      rw [fnGo]
      simp only [hfn]
      rw [fnGo]
      rfl
    exact runPasses_eval _ _ _ _ _ _ hchap hfn2
  · rfl

/-- **C8** counterexample: a footnote-tree link that is the first child
of its parent (no preceding sibling at all) does not become a Reference
— the run fails with the unexpected-position error of lines 148-152. -/
theorem c8_counterexample :
    runPasses [] [.container "paragraph" [.link "chapter001-fn.xhtml#z" [.text "a"]]] =
      .error .unexpectedPosition := by
  have h4 : splitUrl "chapter001-fn.xhtml#z" = ("chapter001-fn.xhtml", some "z") := rfl
  have h5 : childrenCheck [MNode.text "a"] = .ok () := rfl
  have hinner : fnGo St0 [] [.link "chapter001-fn.xhtml#z" [.text "a"]] =
      .error .unexpectedPosition := by
    rw [fnGo]
    rw [h4, if_neg (by decide)]
    simp [h5]
  have hchap : chapRunList [] St0 = .ok ([], St0) := by rw [chapRunList]
  have hfn2 : fnGo St0 []
      [.container "paragraph" [.link "chapter001-fn.xhtml#z" [.text "a"]]] =
      .error .unexpectedPosition := by
    rw [fnGo]
    simp only [hinner]
  exact runPasses_fnError _ _ _ _ _ hchap hfn2

/-- **C8** (corrected).  A footnote-tree link at position ≥ 1 whose
previous sibling yields no anchor identifier (not an Anchor Marker, or
an unrecorded one) is classified as an ordinary Reference: with a fresh
label the pass emits a Footnote Reference carrying the (possibly
sentinel-substituted) label, registers it, and raises no error for the
node.  A link that is the *first* child of its parent instead aborts
the run, see `c8_counterexample`. -/
theorem c8_reference_branch (st : St) (acc rest : List MNode) (url : String)
    (cs : List MNode) (t lbl : String) (prev : MNode)
    (hf : (splitUrl url).1 = file1 ∨ (splitUrl url).1 = file2)
    (hsp : (splitUrl url).2 = some t) (ht : t ≠ "")
    (hcc : childrenCheck cs = .ok ())
    (hlast : acc.getLast? = some prev)
    (hprev : prevIdentifier st.targets prev = none)
    (hlbl : labelValue cs = .ok lbl)
    (hfresh : st.used.contains (desiredOf "fn-ast" lbl) = false) :
    fnGo st acc (.link url cs :: rest) =
      fnGo ⟨desiredOf "fn-ast" lbl :: st.used,
          mapSet st.targets t (desiredOf "fn-ast" lbl)⟩
        (acc ++ [.footnoteReference (desiredOf "fn-ast" lbl)]) rest := by
  have href : fnRefStep st cs t =
      .ok (.footnoteReference (desiredOf "fn-ast" lbl),
        ⟨desiredOf "fn-ast" lbl :: st.used,
          mapSet st.targets t (desiredOf "fn-ast" lbl)⟩) := by
    simp only [fnRefStep, hlbl, allocateWith_fresh "fn-ast" st.used lbl hfresh]
  rw [fnGo]
  rw [if_neg (by rcases hf with hf | hf <;> simp [hf])]
  simp only [hsp, if_neg ht, hcc, hlast, hprev, href]

/-- Witness for `c8_reference_branch`: a link preceded by a plain text
sibling becomes the reference `"a"` with no error. -/
theorem c8_witness :
    fnGo St0 [.text "w"] [.link "chapter001.xhtml#b" [.text "a"]] =
      fnGo ⟨desiredOf "fn-ast" "a" :: St0.used,
          mapSet St0.targets "b" (desiredOf "fn-ast" "a")⟩
        ([MNode.text "w"] ++ [.footnoteReference (desiredOf "fn-ast" "a")]) [] :=
  c8_reference_branch St0 [.text "w"] [] "chapter001.xhtml#b" [.text "a"] "b" "a"
    (.text "w") (Or.inl rfl) rfl (by decide) rfl rfl rfl rfl rfl

/-- **C2** (corrected).  What a successful run does guarantee is that
Footnote Reference identifiers are pairwise distinct across the two
mutated trees; it does *not* guarantee that every Reference has a
matching Definition — see `c2_counterexample`, a successful run whose
Reference has no Definition at all. -/
theorem c2_reference_identifiers_unique (chapC fnC c' f' : List MNode) (st' : St)
    (hc : fnFreeList chapC = true) (hf : fnFreeList fnC = true)
    (h : runPasses chapC fnC = .ok (c', f', st')) :
    (refIdsList c' ++ refIdsList f').Nodup :=
  (runPasses_invariant chapC fnC c' f' st' hc hf h).1

/-- Witness for `c2_reference_identifiers_unique` on a small run. -/
theorem c2_witness :
    (refIdsList [.container "paragraph" [.footnoteReference "a"]] ++ refIdsList []).Nodup :=
  c2_reference_identifiers_unique
    [.container "paragraph" [.link "chapter001-fn.xhtml#t" [.text "a"]]] []
    [.container "paragraph" [.footnoteReference "a"]] [] ⟨["a"], [("t", "a")]⟩
    (by simp [fnFreeList]) (by simp [fnFreeList])
    (by
      have h1 : chapLinkStep St0 "chapter001-fn.xhtml#t" [.text "a"] =
          .ok (.footnoteReference "a", ⟨["a"], [("t", "a")]⟩) := rfl
      have hchap : chapRunList
          [.container "paragraph" [.link "chapter001-fn.xhtml#t" [.text "a"]]] St0 =
          .ok ([.container "paragraph" [.footnoteReference "a"]], ⟨["a"], [("t", "a")]⟩) := by
        simp only [chapRunList, h1]
      have hfn2 : fnGo (⟨["a"], [("t", "a")]⟩ : St) [] ([] : List MNode) =
          .ok ([], ⟨["a"], [("t", "a")]⟩) := by rw [fnGo]
      exact runPasses_eval _ _ _ _ _ _ hchap hfn2)

/-- **C2** counterexample: a successful run (no error, output emitted)
in which the only Footnote Reference, identifier `"a"`, has *no*
Footnote Definition anywhere — the engine performs no end-of-run check
that references are defined. -/
theorem c2_counterexample :
    runPasses [.container "paragraph" [.link "chapter001-fn.xhtml#t" [.text "a"]]] [] =
      .ok ([.container "paragraph" [.footnoteReference "a"]], [],
        ⟨["a"], [("t", "a")]⟩) ∧
    refIdsList [.container "paragraph" [.footnoteReference "a"]] = ["a"] ∧
    defIdsList [.container "paragraph" [.footnoteReference "a"]] = [] ∧
    defIdsList ([] : List MNode) = [] := by
  refine ⟨?_, by simp [refIdsList], by simp [defIdsList], by simp [defIdsList]⟩
  have h1 : chapLinkStep St0 "chapter001-fn.xhtml#t" [.text "a"] =
      .ok (.footnoteReference "a", ⟨["a"], [("t", "a")]⟩) := rfl
  have hchap : chapRunList
      [.container "paragraph" [.link "chapter001-fn.xhtml#t" [.text "a"]]] St0 =
      .ok ([.container "paragraph" [.footnoteReference "a"]], ⟨["a"], [("t", "a")]⟩) := by
    simp only [chapRunList, h1]
  have hfn2 : fnGo (⟨["a"], [("t", "a")]⟩ : St) [] ([] : List MNode) =
      .ok ([], ⟨["a"], [("t", "a")]⟩) := by rw [fnGo]
  exact runPasses_eval _ _ _ _ _ _ hchap hfn2

/-- **C3** (confirmed).  At the end of every successful run on
loader-produced inputs (trees without pre-existing footnote nodes),
every node classified as a Footnote Definition has *exactly one*
Footnote Reference in the two mutated trees sharing its identifier.  In
particular a Definition whose identifier no Reference cites is
impossible, so the spec's `UnresolvedAnchorError` clause is vacuously
satisfied (and indeed unreachable). -/
theorem c3_every_definition_has_exactly_one_reference
    (chapC fnC c' f' : List MNode) (st' : St)
    (hc : fnFreeList chapC = true) (hf : fnFreeList fnC = true)
    (h : runPasses chapC fnC = .ok (c', f', st')) :
    ∀ d ∈ defIdsList c' ++ defIdsList f',
      (refIdsList c' ++ refIdsList f').count d = 1 := by
  obtain ⟨hnd, hcdefs, hfdefs⟩ := runPasses_invariant chapC fnC c' f' st' hc hf h
  intro d hd
  rw [hcdefs] at hd
  simp only [List.nil_append] at hd
  exact List.count_eq_one_of_mem hnd (hfdefs d hd)

/-- Witness for `c3_every_definition_has_exactly_one_reference`: a run
producing the definition `"a"` whose unique citing reference sits in
the chapter tree. -/
theorem c3_witness :
    (refIdsList [.container "paragraph" [.footnoteReference "a"]] ++
      refIdsList [.container "paragraph" [.footnoteDefinition "a" []]]).count "a" = 1 :=
  c3_every_definition_has_exactly_one_reference
    [.container "paragraph" [.link "chapter001-fn.xhtml#t" [.text "a"]]]
    [.container "paragraph"
      [.html "<!-- t -->", .link "chapter001.xhtml#b" [.text "1"]]]
    [.container "paragraph" [.footnoteReference "a"]]
    [.container "paragraph" [.footnoteDefinition "a" []]]
    ⟨["a"], [("t", "a")]⟩
    (by simp [fnFreeList]) (by simp [fnFreeList])
    (by
      have h1 : chapLinkStep St0 "chapter001-fn.xhtml#t" [.text "a"] =
          .ok (.footnoteReference "a", ⟨["a"], [("t", "a")]⟩) := rfl
      have h2 : prevIdentifier [("t", "a")] (.html "<!-- t -->") = some "a" := rfl
      have h4 : splitUrl "chapter001.xhtml#b" = ("chapter001.xhtml", some "b") := rfl
      have h5 : childrenCheck [MNode.text "1"] = .ok () := rfl
      have hfn : fnGo ⟨["a"], [("t", "a")]⟩ []
          [.html "<!-- t -->", .link "chapter001.xhtml#b" [.text "1"]] =
          .ok ([.footnoteDefinition "a" []], ⟨["a"], [("t", "a")]⟩) := by
        rw [fnGo, fnGo]
        rw [h4, if_neg (by decide), h5]
        simp [h2]
        rw [fnGo]
      have hchap : chapRunList
          [.container "paragraph" [.link "chapter001-fn.xhtml#t" [.text "a"]]] St0 =
          .ok ([.container "paragraph" [.footnoteReference "a"]], ⟨["a"], [("t", "a")]⟩) := by
        simp only [chapRunList, h1]
      have hfn2 : fnGo (⟨["a"], [("t", "a")]⟩ : St) []
          [.container "paragraph"
            [.html "<!-- t -->", .link "chapter001.xhtml#b" [.text "1"]]] =
          .ok ([.container "paragraph" [.footnoteDefinition "a" []]],
            ⟨["a"], [("t", "a")]⟩) := by
        rw [fnGo]
        simp only [hfn]
        rw [fnGo]
        rfl
      exact runPasses_eval _ _ _ _ _ _ hchap hfn2)
    "a" (by simp [defIdsList])

/-- **C9** (confirmed).  All-or-nothing: a run either aborts with an
error and emits nothing, or succeeds, emits the three markdown files
and leaves both trees fully classified — not a single link node
remains in either. -/
theorem c9_all_or_nothing (chapC fnC : List MNode) :
    (∃ e, runPasses chapC fnC = .error e ∧ emittedFiles chapC fnC = []) ∨
    (∃ c' f' st', runPasses chapC fnC = .ok (c', f', st') ∧
      emittedFiles chapC fnC =
        [("chapter001.md", c'), ("chapter001-fn.md", f'),
         ("parts-combined.md", c' ++ f')] ∧
      linkFreeList c' = true ∧ linkFreeList f' = true) := by
  cases h : runPasses chapC fnC with
  | error e => exact Or.inl ⟨e, rfl, by simp [emittedFiles, h]⟩
  | ok p =>
    obtain ⟨c', f', st'⟩ := p
    obtain ⟨st₁, h1, h2⟩ := runPasses_ok_split chapC fnC c' f' st' h
    refine Or.inr ⟨c', f', st', rfl, by simp [emittedFiles, h], ?_, ?_⟩
    · exact chap_linkFree chapC St0 c' st₁ h1
    · exact fn_linkFree st₁ [] fnC f' st' (by simp [linkFreeList]) h2

/-! ## The Reference Collector claim -/


theorem setAdd_nodup (l : List String) (x : String) (h : l.Nodup) : (setAdd l x).Nodup := by
  unfold setAdd
  split
  · exact h
  · next hc =>
    rw [List.nodup_append]
    refine ⟨h, List.nodup_singleton _, ?_⟩
    intro a ha hb
    simp at hb
    subst hb
    exact hc (by simpa using ha)

theorem collectUrlAdd_nodup (acc : List String) (tag : String) (href : Option String)
    (h : acc.Nodup) : (collectUrlAdd acc tag href).Nodup := by
  unfold collectUrlAdd
  split
  · split
    · split
      · exact setAdd_nodup _ _ h
      · exact h
    · exact h
  · exact h

theorem collectUrlsList_nodup (acc : List String) (l : List HNode) (h : acc.Nodup) :
    (collectUrlsList acc l).Nodup := by
  induction acc, l using collectUrlsList.induct with
  | case1 acc => rw [collectUrlsList]; exact h
  | case2 acc tag href cs rest ih1 ih2 =>
    rw [collectUrlsList]
    exact ih2 (ih1 (collectUrlAdd_nodup _ _ _ h))
  | case3 acc cs rest ih1 ih2 =>
    rw [collectUrlsList]
    exact ih2 (ih1 h)

theorem collectReferencedUrls_eq (root : HNode) (isFn : Bool) :
    collectReferencedUrls root isFn =
      (if (if isFn then 2 else 1) < (collectUrlsList [] [root]).length
        then .error .tooManyReferencedFiles else .ok (collectUrlsList [] [root])) := by
  unfold collectReferencedUrls
  cases isFn <;> simp

/-- **C6** (corrected).  The Reference Collector performs no per-link
validation at all: whatever the tree, it can only fail with
`TooManyReferencedFilesError`, and does so exactly when the number of
distinct referenced files exceeds 1 for the chapter tree or 2 for the
footnote container.  The empty-anchor and external-file failures the
spec attributes to it are raised later, by the Classifier — see
`c6_counterexample`. -/
theorem c6_collector_only_counts_files (root : HNode) (isFn : Bool) :
    (∀ e, collectReferencedUrls root isFn = .error e → e = .tooManyReferencedFiles) ∧
    (collectReferencedUrls root isFn = .error .tooManyReferencedFiles ↔
      (if isFn then 2 else 1) < (collectUrlsList [] [root]).length) ∧
    (collectUrlsList [] [root]).Nodup := by
  cases isFn with
  | false =>
    refine ⟨?_, ?_, collectUrlsList_nodup [] [root] (by simp)⟩
    · intro e he
      rw [collectReferencedUrls_eq] at he
      rw [show ((if (false : Bool) then 2 else 1) : Nat) = 1 from rfl] at he
      split at he
      · injection he with he; exact he.symm
      · cases he
    · rw [collectReferencedUrls_eq]
      rw [show ((if (false : Bool) then 2 else 1) : Nat) = 1 from rfl]
      constructor
      · intro he
        split at he
        · next hlen => exact hlen
        · cases he
      · intro hlen
        rw [if_pos hlen]
  | true =>
    refine ⟨?_, ?_, collectUrlsList_nodup [] [root] (by simp)⟩
    · intro e he
      rw [collectReferencedUrls_eq] at he
      rw [show ((if (true : Bool) then 2 else 1) : Nat) = 2 from rfl] at he
      split at he
      · injection he with he; exact he.symm
      · cases he
    · rw [collectReferencedUrls_eq]
      rw [show ((if (true : Bool) then 2 else 1) : Nat) = 2 from rfl]
      constructor
      · intro he
        split at he
        · next hlen => exact hlen
        · cases he
      · intro hlen
        rw [if_pos hlen]

/-- Witness for `c6_collector_only_counts_files`: the uniqueness of the
collected url list on a concrete tree. -/
theorem c6_witness :
    (collectUrlsList [] [HNode.element "a" (some "zzz.html#x") []]).Nodup :=
  (c6_collector_only_counts_files (.element "a" (some "zzz.html#x") []) false).2.2

/-- **C6** counterexample: an `a` element whose href names an unknown
file *and* has an empty anchor id — the Collector raises neither
`ExternalReferenceError` nor `MalformedLinkError`; it succeeds,
returning the one distinct file. -/
theorem c6_counterexample :
    (splitUrl "zzz.html#").2 = some "" ∧
    "zzz.html" ≠ file1 ∧ "zzz.html" ≠ file2 ∧
    collectReferencedUrls (.element "a" (some "zzz.html#") []) false = .ok ["zzz.html"] := by
  refine ⟨rfl, by decide, by decide, ?_⟩
  simp only [collectReferencedUrls, collectUrlsList, collectUrlAdd]
  rfl

end CapConv
